import Mathlib

set_option maxRecDepth 20000

/-!
Verification of the TSM-Group-Maker item-identifier engine (src/script.js).

The JavaScript source is shallowly embedded: strings are Lean `String`s
(processed as their `List Char`), a JS `Set` of strings is a duplicate-free
`List String` built by insertion-order `add`, and each regular-expression
`exec` loop is translated into an explicit character scanner.  Each scanner
is written as a structurally recursive function that advances one character
at a time; for every pattern used by the source this is equivalent to the
JS `lastIndex` (skip past each match) semantics, because no new match of the
pattern can begin strictly inside a previously matched segment (the comment
on each scanner records the argument).
-/

namespace TSM

/-- ASCII letter, i.e. the regex class `[a-z]` under the `i` flag. -/
def isAsciiLetter (c : Char) : Bool :=
  ('a' ≤ c && c ≤ 'z') || ('A' ≤ c && c ≤ 'Z')

/-- Regex word character `\w` = `[A-Za-z0-9_]` (used by `\b`). -/
def isWordChar (c : Char) : Bool :=
  isAsciiLetter c || c.isDigit || c = '_'

/-- After a `<`: an ASCII letter follows immediately and a `>` occurs
somewhere later. -/
def headLetterGt : List Char → Bool
  | [] => false
  | d :: ds => isAsciiLetter d && ds.contains '>'

/-- `const isHTML = /<[a-z][\s\S]*>/i.test(text)` (script.js line 4):
the text contains a `<`, immediately followed by an ASCII letter, with a `>`
somewhere later. -/
def isHTMLChars : List Char → Bool
  | [] => false
  | c :: cs => (c = '<' && headLetterGt cs) || isHTMLChars cs

def isHTML (text : String) : Bool := isHTMLChars text.toList

/-- Case-insensitive literal matcher.  Each pattern entry lists the two
characters accepted at that position (for symbols both components are the
symbol itself).  Returns the input remaining after the literal. -/
def matchPat : List (Char × Char) → List Char → Option (List Char)
  | [], s => some s
  | _ :: _, [] => none
  | p :: ps, c :: cs => if c = p.1 || c = p.2 then matchPat ps cs else none

/-- The literal `wowhead\.com\/` of the URL pattern (script.js line 30),
case-insensitive. -/
def wowheadPat : List (Char × Char) :=
  [('w','W'),('o','O'),('w','W'),('h','H'),('e','E'),('a','A'),('d','D'),
   ('.','.'),('c','C'),('o','O'),('m','M'),('/','/')]

/-- The literal `item` (case-insensitive). -/
def itemPat : List (Char × Char) := [('i','I'),('t','T'),('e','E'),('m','M')]

/-- The literal `item` (case-sensitive), for the resolver fallback regex
(script.js line 98, which has no `i` flag). -/
def itemPatCS : List (Char × Char) := [('i','i'),('t','t'),('e','e'),('m','m')]

/-- The literal `item:` (case-insensitive `:` pattern, script.js line 46). -/
def itemColonPat : List (Char × Char) :=
  [('i','I'),('t','T'),('e','E'),('m','M'),(':',':')]

/-- The literal `href` (HTML attribute names are case-insensitive). -/
def hrefPat : List (Char × Char) := [('h','H'),('r','R'),('e','E'),('f','F')]

/-- Match `item[=/](\d+)` (with `item` given by `pat`) at the head of the
input: the literal, then `=` or `/`, then a maximal nonempty digit run
(`\d+` is greedy and nothing follows it, so it takes the whole run).
Returns the digit group and the input remaining after the match. -/
def matchItemAfter (pat : List (Char × Char)) (s : List Char) :
    Option (List Char × List Char) :=
  match matchPat pat s with
  | some (c :: cs) =>
    if c = '=' || c = '/' then
      if (cs.takeWhile Char.isDigit).isEmpty then none
      else some (cs.takeWhile Char.isDigit, cs.dropWhile Char.isDigit)
    else none
  | _ => none

/-- Match `\/?item[=/](\d+)` at the head of the input.  The optional slash
is greedy, so the variant consuming `/` is tried first. -/
def matchSlashItem (s : List Char) : Option (List Char × List Char) :=
  match s with
  | '/' :: rest =>
    (match matchItemAfter itemPat rest with
     | some r => some r
     | none => matchItemAfter itemPat s)
  | _ => matchItemAfter itemPat s

/-- Backtracking for `[a-z]*\/?item[=/](\d+)`: the greedy letter run is
tried from length `n` down to `0`; the letters lie at the head of `s`. -/
def wowTailFrom : Nat → List Char → Option (List Char × List Char)
  | 0, s => matchSlashItem s
  | Nat.succ n, s =>
    match matchSlashItem (s.drop (Nat.succ n)) with
    | some r => some r
    | none => wowTailFrom n s

/-- Match `[a-z]*\/?item[=/](\d+)` at the head of the input, with the JS
backtracking order (maximal letter run first). -/
def wowTail (s : List Char) : Option (List Char × List Char) :=
  wowTailFrom (s.takeWhile isAsciiLetter).length s

/-- The exec loop of `/wowhead\.com\/[a-z]*\/?item[=/](\d+)/gi`
(script.js lines 30-34), collecting the digit group of each match.
The scanner advances one character at a time; this agrees with the JS
non-overlapping semantics because no occurrence of the literal
`wowhead.com/` can begin strictly inside a matched segment: the segment
contains a single `.` (at offset 7) and the seven letters before it are
`owhead.`-aligned, so a second prefix would have to coincide with the
first. -/
def wowheadScanAux : List Char → List (List Char)
  | [] => []
  | c :: cs =>
    (match matchPat wowheadPat (c :: cs) with
     | some rest =>
       match wowTail rest with
       | some p => [p.1]
       | none => []
     | none => []) ++ wowheadScanAux cs

def wowheadScan (text : String) : List String :=
  (wowheadScanAux text.toList).map String.mk

/-- The exec loop of `/\b(\d+)\b/g` (script.js lines 39-42).  A match is a
maximal digit run whose left neighbour (tracked by `prevWord`) and right
neighbour are both non-word characters or string edges; starts strictly
inside a digit run always fail `\b` (the previous character is a digit),
so scanning every position with a `prevWord` flag agrees with JS. -/
def bareScanAux (prevWord : Bool) : List Char → List (List Char)
  | [] => []
  | c :: cs =>
    if c.isDigit then
      (if !prevWord && (match cs.dropWhile Char.isDigit with
          | [] => true
          | d :: _ => !isWordChar d) then
        [c :: cs.takeWhile Char.isDigit]
      else []) ++ bareScanAux true cs
    else bareScanAux (isWordChar c) cs

def bareScan (text : String) : List String :=
  (bareScanAux false text.toList).map String.mk

/-- The exec loop of `/item:(\d+)/gi` (script.js lines 46-49).  Advancing
one character at a time agrees with JS: a matched segment is `item:` plus
digits, and after its first character no `i`/`I` occurs, so no new match
can begin inside it. -/
def itemScanAux : List Char → List (List Char)
  | [] => []
  | c :: cs =>
    (match matchPat itemColonPat (c :: cs) with
     | some rest =>
       if (rest.takeWhile Char.isDigit).isEmpty then []
       else [rest.takeWhile Char.isDigit]
     | none => []) ++ itemScanAux cs

def itemScan (text : String) : List String :=
  (itemScanAux text.toList).map String.mk

/-- The exec loop of `/i:(\d+)/gi` (script.js lines 52-55).  Advancing one
character at a time agrees with JS: a matched segment is `i:` plus digits,
and after its first character no `i`/`I` occurs. -/
def tsmScanAux : List Char → List (List Char)
  | [] => []
  | c :: cs =>
    (if (c = 'i' || c = 'I') ∧ cs.head? = some ':' then
       if (cs.tail.takeWhile Char.isDigit).isEmpty then []
       else [cs.tail.takeWhile Char.isDigit]
     else []) ++ tsmScanAux cs

def tsmScan (text : String) : List String :=
  (tsmScanAux text.toList).map String.mk

/-- HTML inter-attribute whitespace. -/
def isHtmlWs (c : Char) : Bool :=
  c = ' ' || c = '\t' || c = '\n' || c = '\r' || c = '\x0c'

/-- The single-quote character (U+0027). -/
def squote : Char := Char.ofNat 39

/-- Model of `link.getAttribute('href')` on the inside of an anchor tag
(the characters between the tag name and the closing `>`): find the first
`href` attribute (preceded by whitespace, name boundary respected) and
return its value — double/single-quoted or unquoted.  A bare `href` has
value `""`.  Models the browser's attribute parsing for well-formed
markup. -/
def findHrefValue : List Char → Option (List Char)
  | [] => none
  | c :: cs =>
    if isHtmlWs c then
      match matchPat hrefPat cs with
      | some rest =>
        if (match rest with
            | [] => true
            | d :: _ => isHtmlWs d || d = '=') then
          match rest.dropWhile isHtmlWs with
          | '=' :: rest2 =>
            (match rest2.dropWhile isHtmlWs with
             | [] => some []
             | q :: v =>
               if q = '"' || q = squote then some (v.takeWhile (fun d => d ≠ q))
               else some ((q :: v).takeWhile (fun d => !isHtmlWs d)))
          | _ => some []
        else findHrefValue cs
      | none => findHrefValue cs
    else findHrefValue cs

/-- First match of `/item[/=](\d+)/i` in a string (script.js line 17,
applied to each href), returning the digit group. -/
def findItemIdCI : List Char → Option (List Char)
  | [] => none
  | c :: cs =>
    match matchItemAfter itemPat (c :: cs) with
    | some p => some p.1
    | none => findItemIdCI cs

/-- Model of the browser collaborators `DOMParser` /
`querySelectorAll('a[href]')` (script.js lines 12-22): scan for anchor
tags `<a`‹delimiter›, read the tag up to its closing `>`, and extract the
`href` attribute value of each.  Faithful for well-formed markup; the
repository delegates this step to the browser platform.  An unterminated
tag (no `>`) yields no element, and an empty href is skipped by the
source's `if (href)` check. -/
def anchorScanAux : List Char → List (List Char)
  | [] => []
  | c :: cs =>
    (if c = '<' then
       match cs with
       | a :: rest =>
         if (a = 'a' || a = 'A')
             && (match rest with
                 | d :: _ => isHtmlWs d || d = '>' || d = '/'
                 | [] => false)
             && rest.contains '>' then
           match findHrefValue (rest.takeWhile (fun d => d ≠ '>')) with
           | some v => if v.isEmpty then [] else [v]
           | none => []
         else []
       | [] => []
     else []) ++ anchorScanAux cs

/-- The HTML step of `extractItemIds` (script.js lines 10-26): for each
anchor's href, the first `item[/=](\d+)` group, in document order. -/
def anchorHrefIds (text : String) : List String :=
  ((anchorScanAux text.toList).filterMap findItemIdCI).map String.mk

/-- `Set.add` of a JS string set: append if not already present. -/
def setAdd (s : List String) (x : String) : List String :=
  if x ∈ s then s else s ++ [x]

/-- Add every element of `xs` in order. -/
def setAddAll (s : List String) (xs : List String) : List String :=
  xs.foldl setAdd s

/-- `extractItemIds` (script.js lines 1-58), with the outcome of the HTML
parsing step abstracted: `Except.ok ids` means the `try` block extracted
`ids` from the anchors, `Except.error ()` means the parse threw and the
`catch` left the step's contribution empty.  The four pattern scans follow
in source order; the bare-number scan runs only when the markup heuristic
did not fire. -/
def extractItemIdsGen (htmlStep : Except Unit (List String)) (text : String) :
    List String :=
  let isH := isHTML text
  let fromHtml : List String :=
    if isH then
      match htmlStep with
      | Except.ok ids => ids
      | Except.error _ => []
    else []
  let s1 := setAddAll [] fromHtml
  let s2 := setAddAll s1 (wowheadScan text)
  let s3 := if isH then s2 else setAddAll s2 (bareScan text)
  let s4 := setAddAll s3 (itemScan text)
  setAddAll s4 (tsmScan text)

/-- `extractItemIds` with the HTML step supplied by the anchor model. -/
def extractItemIds (text : String) : List String :=
  extractItemIdsGen (Except.ok (anchorHrefIds text)) text


/-- The exec loop of `/\[([^\]]+)\]/g` (script.js lines 111-120), as a
left-to-right state machine.  Between two `]`s, the leftmost match starts
at the first `[` of the region and its group runs to the region's closing
`]` (the class `[^\]]+` is greedy and cannot cross a `]`); a `[` directly
followed by `]` matches nothing and the engine moves on.  `found` records
whether a `[` has been seen in the current region; `acc` accumulates the
group in reverse. -/
def namesAux (found : Bool) (acc : List Char) : List Char → List (List Char)
  | [] => []
  | c :: cs =>
    if c = ']' then
      (if found && !acc.isEmpty then [acc.reverse] else []) ++ namesAux false [] cs
    else if c = '[' then
      if found then namesAux true (c :: acc) cs else namesAux true [] cs
    else
      if found then namesAux found (c :: acc) cs else namesAux found acc cs

/-- `extractItemNames` (script.js lines 111-120): the bracketed names, in
order of appearance, duplicates preserved. -/
def extractItemNames (text : String) : List String :=
  (namesAux false [] text.toList).map String.mk

/-- The exact decimal value of a digit string (`Number` parses the
digits to this exact value before rounding it to a double). -/
def natVal (s : String) : Nat :=
  s.toList.foldl (fun n c => n * 10 + (c.toNat - 48)) 0

/-- Fuel-driven floor of the base-2 logarithm (the fuel `1024` used
below covers every value that does not overflow a double). -/
def log2Fuel : Nat → Nat → Nat
  | 0, _ => 0
  | f + 1, n => if n ≤ 1 then 0 else log2Fuel f (n / 2) + 1

/-- Round an exact natural number to the nearest IEEE-754 binary64
value (round half to even), as `Number` does with a parsed digit
string: values below `2^53` are exact; otherwise the 53-bit mantissa is
rounded at granularity `2^(log2 n - 52)`; values at or beyond `2^1024`
after rounding overflow to Infinity (`none`). -/
def roundDouble (n : Nat) : Option Nat :=
  if n < 2 ^ 53 then some n
  else if 2 ^ 1024 ≤ n then none
  else
    let k := log2Fuel 1024 n - 52
    let q := n / 2 ^ k
    let r := n % 2 ^ k
    let half := 2 ^ (k - 1)
    let q2 := if half < r ∨ (r = half ∧ q % 2 = 1) then q + 1 else q
    if 2 ^ 1024 ≤ q2 * 2 ^ k then none else some (q2 * 2 ^ k)

/-- `Number(s)` for a digit string: its exact value rounded to a
double; `none` is Infinity. -/
def jsNum (s : String) : Option Nat := roundDouble (natVal s)

/-- Strict order on rounded doubles; Infinity (`none`) is above every
finite value and ties with itself (`Infinity - Infinity` is NaN, which
`Array.prototype.sort` treats as `0`). -/
def keyLtB : Option Nat → Option Nat → Bool
  | some x, some y => decide (x < y)
  | some _, none => true
  | none, _ => false

/-- The sign of the comparator `Number(a) - Number(b)` (script.js
line 173): `true` iff the difference is negative. -/
def jsLt (a b : String) : Bool := keyLtB (jsNum a) (jsNum b)

/-- Stable insertion of one element into a sorted list: the new element
goes after every element not comparator-greater, exactly as a stable
sort places a later-input element on a tie (equal doubles — e.g. ids
beyond `2^53` whose doubles coincide — keep insertion order). -/
def insertNum (a : String) : List String → List String
  | [] => [a]
  | b :: l => if jsLt a b then a :: b :: l else b :: insertNum a l

/-- `Array.from(itemIds).sort((a, b) => Number(a) - Number(b))`
(script.js line 173): the unique stable reordering of the
insertion-order set that is ascending under the double comparator. -/
def sortNumeric (l : List String) : List String :=
  l.foldl (fun acc a => insertNum a acc) []

/-- `Array.prototype.join(sep)`. -/
def joinWith (sep : String) : List String → String
  | [] => ""
  | [x] => x
  | x :: xs => x ++ sep ++ joinWith sep xs

/-- `sortedIds.map(id => ` i:id `).join(',')` (script.js line 194). -/
def renderTSM (ids : List String) : String :=
  joinWith "," (ids.map (fun id => "i:" ++ id))

/-- UTF-8 bytes of a character (for `encodeURIComponent`). -/
def utf8Bytes (c : Char) : List Nat :=
  let n := c.toNat
  if n < 128 then [n]
  else if n < 2048 then [192 + n / 64, 128 + n % 64]
  else if n < 65536 then [224 + n / 4096, 128 + (n / 64) % 64, 128 + n % 64]
  else [240 + n / 262144, 128 + (n / 4096) % 64, 128 + (n / 64) % 64, 128 + n % 64]

/-- Uppercase hexadecimal digit. -/
def hexDigit (n : Nat) : Char :=
  if n < 10 then Char.ofNat (48 + n) else Char.ofNat (55 + n)

/-- The characters `encodeURIComponent` leaves unescaped. -/
def isUnreservedURI (c : Char) : Bool :=
  isAsciiLetter c || c.isDigit || c = '-' || c = '_' || c = '.' || c = '!'
    || c = '~' || c = '*' || c = squote || c = '(' || c = ')'

/-- Model of the platform `encodeURIComponent`: unreserved characters kept,
every other character percent-encoded as its UTF-8 bytes. -/
def encodeURIComponent (s : String) : String :=
  String.mk (s.toList.foldr
    (fun c acc =>
      if isUnreservedURI c then c :: acc
      else (utf8Bytes c).foldr
        (fun b acc2 => '%' :: hexDigit (b / 16) :: hexDigit (b % 16) :: acc2) acc)
    [])

/-- The search URL built by the resolver (script.js line 66). -/
def searchUrlFor (itemName : String) : String :=
  "https://www.wowhead.com/items?filter=na=" ++ encodeURIComponent itemName

/-- Outcome of a `searchWowheadForItemName` call: the two object shapes the
source returns (lines 90, 100, 103, 107). -/
inductive SearchResult where
  | found (id searchedName foundName : String)
  | notFound (name error searchUrl : String)
deriving DecidableEq

/-- Behaviour of the external `fetch` collaborator (plus `response.text()`):
either the awaited call throws (network error, timeout, abort), or it
yields a response with an `ok` flag and a body. -/
inductive FetchBehavior where
  | fetchThrow (msg : String)
  | respond (ok : Bool) (body : String)

/-- One row of the parsed Listview data array: `id` (a JSON number,
`none` when absent, `0` is falsy), `name_enus` and `name` (falsy when
`none` or empty). -/
structure DataRow where
  id : Option Nat
  name_enus : Option String
  name : Option String

/-- Outcome of the Listview extraction (regex at script.js line 82 plus
`JSON.parse`): regex did not match, parse threw, or a parsed array. -/
inductive ListviewOutcome where
  | noMatch
  | parseFailure
  | parsed (data : List DataRow)

/-- The JS `a || b` on an optional string: falsy (`none` or `""`) falls
through to `b`. -/
def jsOrStr (a : Option String) (b : String) : String :=
  match a with
  | some s => if s = "" then b else s
  | none => b

/-- First match of `/\/item[=/](\d+)/` (case-sensitive, script.js line 98)
in the response body, returning the digit group. -/
def findFallbackItemId : List Char → Option (List Char)
  | [] => none
  | c :: cs =>
    if c = '/' then
      match matchItemAfter itemPatCS cs with
      | some p => some p.1
      | none => findFallbackItemId cs
    else findFallbackItemId cs

/-- The structured Listview branch (script.js lines 84-95): the first
row's id (a truthy JSON number) and display name, if present. -/
def listviewResult (itemName : String) (lv : ListviewOutcome) :
    Option SearchResult :=
  match lv with
  | ListviewOutcome.parsed (row :: _) =>
    match row.id with
    | some n =>
      if n ≠ 0 then
        some (SearchResult.found (toString n) itemName
          (jsOrStr row.name_enus (jsOrStr row.name itemName)))
      else none
    | none => none
  | _ => none

/-- `searchWowheadForItemName` (script.js lines 60-109), with the network
collaborator (`fetchResult`) and the Listview regex + `JSON.parse` step
(`listview`) abstracted.  Every throw of the source is caught: a fetch
failure or non-ok response becomes a `notFound` via the outer catch, a
parse failure falls through to the fallback scan, and a failed fallback
returns `notFound` with the constructed search URL. -/
def searchWowheadForItemName (itemName : String) (fetchResult : FetchBehavior)
    (listview : String → ListviewOutcome) : SearchResult :=
  let searchUrl := searchUrlFor itemName
  match fetchResult with
  | FetchBehavior.fetchThrow msg => SearchResult.notFound itemName msg searchUrl
  | FetchBehavior.respond ok html =>
    if ok = false then SearchResult.notFound itemName "Response not OK" searchUrl
    else
      match listviewResult itemName (listview html) with
      | some r => r
      | none =>
        match findFallbackItemId html.toList with
        | some ds => SearchResult.found (String.mk ds) itemName itemName
        | none => SearchResult.notFound itemName "No item found" searchUrl

/-- `escapeHtml` (script.js lines 129-134): the browser's
`textContent`/`innerHTML` round trip escapes `&`, `<`, `>` and the
no-break space. -/
def escapeHtmlChar (c : Char) : String :=
  if c = '&' then "&amp;"
  else if c = '<' then "&lt;"
  else if c = '>' then "&gt;"
  else if c = Char.ofNat 160 then "&nbsp;"
  else String.mk [c]

def escapeHtml (text : String) : String :=
  String.join (text.toList.map escapeHtmlChar)

/-- `formatSearchLinks` (script.js lines 122-127) on the collected
`(name, searchUrl)` pairs. -/
def formatSearchLinks (failedSearches : List (String × String)) : String :=
  joinWith ", " (failedSearches.map (fun it =>
    "<a href=\"" ++ it.2 ++ "\" target=\"_blank\" style=\"color: #58a6ff;\">"
      ++ escapeHtml it.1 ++ "</a>"))

/-- One entry of `foundItems` (script.js line 163). -/
structure FoundItem where
  searchedName : String
  foundName : String
  id : String
deriving DecidableEq

/-- A `showMessage(text, type, isHTML)` call (script.js line 264). -/
structure Msg where
  text : String
  kind : String
  isHtml : Bool
deriving DecidableEq

/-- The observable outcome of `convertToTSM`: the final message shown and
the values written to the output field and the two counters (`none` when
the early-return path leaves them untouched). -/
structure ConvertResult where
  message : Msg
  outputValue : Option String
  itemCount : Option String
  uniqueCount : Option String
deriving DecidableEq

/-- The whitespace set removed by `String.prototype.trim` (ECMAScript
WhiteSpace plus LineTerminator): TAB, LF, VT, FF, CR, SP, NBSP, OGHAM
SPACE MARK (U+1680), the Zs spaces U+2000-U+200A, LINE SEPARATOR
(U+2028), PARAGRAPH SEPARATOR (U+2029), NARROW NBSP (U+202F), MEDIUM
MATHEMATICAL SPACE (U+205F), IDEOGRAPHIC SPACE (U+3000) and ZWNBSP
(U+FEFF). -/
def isJsWs (c : Char) : Bool :=
  c = ' ' || c = '\t' || c = '\n' || c = '\r' || c = '\x0b' || c = '\x0c'
    || c = Char.ofNat 160 || c = Char.ofNat 5760
    || (Char.ofNat 8192 ≤ c && c ≤ Char.ofNat 8202)
    || c = Char.ofNat 8232 || c = Char.ofNat 8233
    || c = Char.ofNat 8239 || c = Char.ofNat 8287
    || c = Char.ofNat 12288 || c = Char.ofNat 65279

/-- `input.trim()` (script.js line 142). -/
def jsTrim (s : String) : String :=
  String.mk (((s.toList.dropWhile isJsWs).reverse.dropWhile isJsWs).reverse)

/-- The name-resolution loop of `convertToTSM` (script.js lines 159-169):
sequentially resolve each name; a success adds the id to the set and a
record to `foundItems`, a failure records `(name, searchUrl)`. -/
def resolveLoop (resolver : String → SearchResult) :
    List String → List String → List FoundItem → List (String × String) →
    List String × List FoundItem × List (String × String)
  | [], ids, found, failed => (ids, found, failed)
  | n :: rest, ids, found, failed =>
    match resolver n with
    | SearchResult.found id sn fn =>
      resolveLoop resolver rest (setAdd ids id) (found ++ [⟨sn, fn, id⟩]) failed
    | SearchResult.notFound _ _ url =>
      resolveLoop resolver rest ids found (failed ++ [(n, url)])

/-- The extraction-plus-resolution state of one conversion: the merged id
set, the found items and the failed searches. -/
def convState (resolver : String → SearchResult) (input : String) :
    List String × List FoundItem × List (String × String) :=
  resolveLoop resolver (extractItemNames input) (extractItemIds input) [] []

/-- `convertToTSM` (script.js lines 136-220) with the resolver
abstracted as a per-name collaborator.  The transient "Searching…"
notification is not part of the outcome; the record holds the final
message and the field updates. -/
def convertToTSM (resolver : String → SearchResult) (input : String) :
    ConvertResult :=
  if jsTrim input = "" then
    { message := ⟨"Please enter some Wowhead URLs or item IDs", "error", false⟩,
      outputValue := none, itemCount := none, uniqueCount := none }
  else
    let st := convState resolver input
    let foundItems := st.2.1
    let failedSearches := st.2.2
    let sortedIds := sortNumeric st.1
    let uniqueCount := sortedIds.length
    if uniqueCount = 0 ∧ failedSearches ≠ [] then
      { message := ⟨"Could not automatically find items. Try searching manually: "
          ++ formatSearchLinks failedSearches
          ++ ". Note: Automatic search may be blocked by ad blockers or browser extensions.",
          "error", true⟩,
        outputValue := some "", itemCount := some "0", uniqueCount := some "0" }
    else if uniqueCount = 0 then
      { message := ⟨"No valid item IDs found in the input", "error", false⟩,
        outputValue := some "", itemCount := some "0", uniqueCount := some "0" }
    else
      let tsmFormat := renderTSM sortedIds
      let base := "Successfully converted " ++ toString uniqueCount
        ++ " item(s) to TSM format!"
      let withFound :=
        if foundItems ≠ [] then
          base ++ String.join (foundItems.map (fun it =>
            "<br>✓ Found: <strong>" ++ escapeHtml it.foundName
              ++ "</strong> (ID: " ++ escapeHtml it.id ++ ")"))
        else base
      if failedSearches ≠ [] then
        { message := ⟨withFound ++ "<br>❌ Could not find: "
            ++ formatSearchLinks failedSearches ++ ". (May be blocked by ad blocker)",
            "info", true⟩,
          outputValue := some tsmFormat,
          itemCount := some (toString uniqueCount),
          uniqueCount := some (toString uniqueCount) }
      else if foundItems ≠ [] then
        { message := ⟨withFound, "success", true⟩,
          outputValue := some tsmFormat,
          itemCount := some (toString uniqueCount),
          uniqueCount := some (toString uniqueCount) }
      else
        { message := ⟨withFound, "success", false⟩,
          outputValue := some tsmFormat,
          itemCount := some (toString uniqueCount),
          uniqueCount := some (toString uniqueCount) }

/-- The union of the raw-text pattern scans (spec steps 2-4), with the
bare-number scan still gated on the markup heuristic. -/
def rawScanUnion (text : String) : List String :=
  let s2 := setAddAll [] (wowheadScan text)
  let s3 := if isHTML text then s2 else setAddAll s2 (bareScan text)
  setAddAll (setAddAll s3 (itemScan text)) (tsmScan text)

/-- The character shape of `renderTSM`: `i:` before each id, `,` between
tokens (a proof-side characterisation of the rendering). -/
def renderChars : List String → List Char
  | [] => []
  | [x] => 'i' :: ':' :: x.toList
  | x :: y :: ys => 'i' :: ':' :: (x.toList ++ ',' :: renderChars (y :: ys))

/-- A resolver stub that always fails, for concrete instantiations. -/
def alwaysFailResolver (n : String) : SearchResult :=
  SearchResult.notFound n "No item found" (searchUrlFor n)

section Lemmas

theorem all_takeWhile {α : Type} (p : α → Bool) (l : List α) :
    (l.takeWhile p).all p = true := by
  induction l with
  | nil => rfl
  | cons c cs ih =>
    rw [List.takeWhile_cons]
    cases hc : p c with
    | false => rfl
    | true => simp [hc, ih]

theorem takeWhile_append_of_all {α : Type} {p : α → Bool} {l : List α}
    (h : l.all p = true) (r : List α) :
    (l ++ r).takeWhile p = l ++ r.takeWhile p := by
  induction l with
  | nil => rfl
  | cons c cs ih =>
    rw [List.all_cons, Bool.and_eq_true] at h
    simp [List.takeWhile_cons, h.1, ih h.2]

theorem dropWhile_append_of_all {α : Type} {p : α → Bool} {l : List α}
    (h : l.all p = true) (r : List α) :
    (l ++ r).dropWhile p = r.dropWhile p := by
  induction l with
  | nil => rfl
  | cons c cs ih =>
    rw [List.all_cons, Bool.and_eq_true] at h
    simp [List.dropWhile_cons, h.1, ih h.2]

theorem isEmpty_of_eq_nil {α : Type} {l : List α} (h : l = []) :
    l.isEmpty = true := by
  subst h; rfl

theorem mk_eq_empty_iff {p : List Char} : String.mk p = "" ↔ p = [] := by
  constructor
  · intro h
    exact congrArg String.data h
  · intro h
    subst h; rfl

theorem mem_setAdd {s : List String} {x y : String} :
    y ∈ setAdd s x ↔ y ∈ s ∨ y = x := by
  unfold setAdd
  split
  next hx =>
    constructor
    · exact Or.inl
    · rintro (h | rfl)
      · exact h
      · exact hx
  next hx => simp

theorem nodup_setAdd {s : List String} {x : String} (h : s.Nodup) :
    (setAdd s x).Nodup := by
  unfold setAdd
  split
  · exact h
  next hx =>
    rw [List.nodup_append]
    refine ⟨h, List.nodup_singleton x, ?_⟩
    intro a ha hax
    rw [List.mem_singleton] at hax
    exact hx (hax ▸ ha)

theorem mem_setAddAll {xs s : List String} {y : String} :
    y ∈ setAddAll s xs ↔ y ∈ s ∨ y ∈ xs := by
  induction xs generalizing s with
  | nil => simp [setAddAll]
  | cons x xs ih =>
    show y ∈ setAddAll (setAdd s x) xs ↔ _
    rw [ih, mem_setAdd]
    simp [or_assoc]

theorem nodup_setAddAll {xs s : List String} (h : s.Nodup) :
    (setAddAll s xs).Nodup := by
  induction xs generalizing s with
  | nil => exact h
  | cons x xs ih => exact ih (nodup_setAdd h)

theorem setAddAll_eq_append {xs s : List String} (hnd : xs.Nodup)
    (hdisj : ∀ x ∈ xs, x ∉ s) : setAddAll s xs = s ++ xs := by
  induction xs generalizing s with
  | nil => simp [setAddAll]
  | cons x xs ih =>
    have hx : x ∉ s := hdisj x (List.mem_cons_self x xs)
    show setAddAll (setAdd s x) xs = _
    rw [List.nodup_cons] at hnd
    rw [ih hnd.2, setAdd, if_neg hx]
    · simp
    · intro a ha
      rw [setAdd, if_neg hx, List.mem_append]
      rintro (h | h)
      · exact hdisj a (List.mem_cons_of_mem x ha) h
      · rw [List.mem_singleton] at h
        exact hnd.1 (h ▸ ha)

theorem setAddAll_of_subset {xs s : List String} (h : ∀ x ∈ xs, x ∈ s) :
    setAddAll s xs = s := by
  induction xs with
  | nil => rfl
  | cons x xs ih =>
    show setAddAll (setAdd s x) xs = s
    rw [setAdd, if_pos (h x (List.mem_cons_self x xs))]
    exact ih fun a ha => h a (List.mem_cons_of_mem x ha)

theorem matchItemAfter_digits {pat : List (Char × Char)} {s : List Char}
    {p : List Char × List Char} (h : matchItemAfter pat s = some p) :
    p.1 ≠ [] ∧ p.1.all Char.isDigit = true := by
  unfold matchItemAfter at h
  split at h
  next c cs heq =>
    split at h
    next hc =>
      by_cases hds : (List.takeWhile Char.isDigit cs).isEmpty = true
      · rw [if_pos hds] at h
        exact absurd h (by simp)
      · rw [if_neg hds] at h
        obtain rfl := (Option.some.inj h).symm
        exact ⟨fun hnil => hds (isEmpty_of_eq_nil hnil), all_takeWhile _ _⟩
    next hc => exact absurd h (by simp)
  next => exact absurd h (by simp)

theorem matchSlashItem_digits {s : List Char} {p : List Char × List Char}
    (h : matchSlashItem s = some p) :
    p.1 ≠ [] ∧ p.1.all Char.isDigit = true := by
  unfold matchSlashItem at h
  split at h
  · split at h
    next r heq =>
      obtain rfl := Option.some.inj h
      exact matchItemAfter_digits heq
    next => exact matchItemAfter_digits h
  · exact matchItemAfter_digits h

theorem wowTailFrom_digits : ∀ {n : Nat} {s : List Char}
    {p : List Char × List Char}, wowTailFrom n s = some p →
    p.1 ≠ [] ∧ p.1.all Char.isDigit = true := by
  intro n
  induction n with
  | zero => intro s p h; exact matchSlashItem_digits h
  | succ n ih =>
    intro s p h
    rw [wowTailFrom] at h
    split at h
    next r heq =>
      obtain rfl := Option.some.inj h
      exact matchSlashItem_digits heq
    next => exact ih h

theorem wowTail_digits {s : List Char} {p : List Char × List Char}
    (h : wowTail s = some p) : p.1 ≠ [] ∧ p.1.all Char.isDigit = true :=
  wowTailFrom_digits h

theorem mem_wowheadScanAux_digits {s : List Char} {p : List Char}
    (h : p ∈ wowheadScanAux s) : p ≠ [] ∧ p.all Char.isDigit = true := by
  induction s with
  | nil => simp [wowheadScanAux] at h
  | cons c cs ih =>
    rw [wowheadScanAux, List.mem_append] at h
    rcases h with h | h
    · split at h
      next rest heq =>
        split at h
        next r heq2 =>
          rw [List.mem_singleton] at h
          subst h
          exact wowTail_digits heq2
        next => exact absurd h (by simp)
      next => exact absurd h (by simp)
    · exact ih h

theorem mem_bareScanAux_digits {s : List Char} {b : Bool} {p : List Char}
    (h : p ∈ bareScanAux b s) : p ≠ [] ∧ p.all Char.isDigit = true := by
  induction s generalizing b with
  | nil => simp [bareScanAux] at h
  | cons c cs ih =>
    rw [bareScanAux] at h
    split at h
    next hc =>
      rw [List.mem_append] at h
      rcases h with h | h
      · split at h
        · rw [List.mem_singleton] at h
          subst h
          exact ⟨by simp, by simp [List.all_cons, hc, all_takeWhile]⟩
        · exact absurd h (by simp)
      · exact ih h
    · exact ih h

theorem mem_itemScanAux_digits {s : List Char} {p : List Char}
    (h : p ∈ itemScanAux s) : p ≠ [] ∧ p.all Char.isDigit = true := by
  induction s with
  | nil => simp [itemScanAux] at h
  | cons c cs ih =>
    rw [itemScanAux, List.mem_append] at h
    rcases h with h | h
    · split at h
      next rest heq =>
        split at h
        next hne => exact absurd h (by simp)
        next hne =>
          rw [List.mem_singleton] at h
          subst h
          exact ⟨fun hnil => hne (isEmpty_of_eq_nil hnil), all_takeWhile _ _⟩
      next => exact absurd h (by simp)
    · exact ih h

theorem mem_tsmScanAux_digits {s : List Char} {p : List Char}
    (h : p ∈ tsmScanAux s) : p ≠ [] ∧ p.all Char.isDigit = true := by
  induction s with
  | nil => simp [tsmScanAux] at h
  | cons c cs ih =>
    rw [tsmScanAux, List.mem_append] at h
    rcases h with h | h
    · split at h
      next hcond =>
        split at h
        next => exact absurd h (by simp)
        next hne =>
          rw [List.mem_singleton] at h
          subst h
          exact ⟨fun hnil => hne (isEmpty_of_eq_nil hnil), all_takeWhile _ _⟩
      next => exact absurd h (by simp)
    · exact ih h

theorem findItemIdCI_digits {s : List Char} {p : List Char}
    (h : findItemIdCI s = some p) : p ≠ [] ∧ p.all Char.isDigit = true := by
  induction s with
  | nil => simp [findItemIdCI] at h
  | cons c cs ih =>
    rw [findItemIdCI] at h
    split at h
    next q hq =>
      obtain rfl := Option.some.inj h
      exact matchItemAfter_digits hq
    next => exact ih h

theorem mem_anchorHrefIds_digits {text : String} {y : String}
    (h : y ∈ anchorHrefIds text) : y ≠ "" ∧ y.toList.all Char.isDigit = true := by
  unfold anchorHrefIds at h
  rw [List.mem_map] at h
  obtain ⟨p, hp, rfl⟩ := h
  rw [List.mem_filterMap] at hp
  obtain ⟨v, _, hv⟩ := hp
  have := findItemIdCI_digits hv
  exact ⟨fun hh => this.1 (mk_eq_empty_iff.mp hh), this.2⟩

theorem mem_mapped_scan_digits {l : List (List Char)} {y : String}
    (h : y ∈ l.map String.mk)
    (hall : ∀ p ∈ l, p ≠ [] ∧ p.all Char.isDigit = true) :
    y ≠ "" ∧ y.toList.all Char.isDigit = true := by
  rw [List.mem_map] at h
  obtain ⟨p, hp, rfl⟩ := h
  have := hall p hp
  exact ⟨fun hh => this.1 (mk_eq_empty_iff.mp hh), this.2⟩

end Lemmas

/-- Every result of `extractItemIdsGen` is duplicate-free. -/
theorem nodup_extractItemIdsGen (htmlStep : Except Unit (List String))
    (text : String) : (extractItemIdsGen htmlStep text).Nodup := by
  simp only [extractItemIdsGen]
  refine nodup_setAddAll (nodup_setAddAll ?_)
  split
  · exact nodup_setAddAll (nodup_setAddAll List.nodup_nil)
  · exact nodup_setAddAll (nodup_setAddAll (nodup_setAddAll List.nodup_nil))

/-- Every id returned by `extractItemIds` is a nonempty digit string, and
the returned list is duplicate-free. -/
theorem extractItemIds_good (text : String) :
    (extractItemIds text).Nodup ∧
      ∀ id ∈ extractItemIds text,
        id ≠ "" ∧ id.toList.all Char.isDigit = true := by
  refine ⟨nodup_extractItemIdsGen _ text, ?_⟩
  intro id hid
  cases hH : isHTML text <;>
    simp only [extractItemIds, extractItemIdsGen, hH, if_true, if_false,
      Bool.false_eq_true, mem_setAddAll, List.not_mem_nil, false_or] at hid <;>
    rcases hid with ((h | h) | h) | h <;>
    first
      | exact mem_anchorHrefIds_digits h
      | exact mem_mapped_scan_digits h fun p hp => mem_wowheadScanAux_digits hp
      | exact mem_mapped_scan_digits h fun p hp => mem_bareScanAux_digits hp
      | exact mem_mapped_scan_digits h fun p hp => mem_itemScanAux_digits hp
      | exact mem_mapped_scan_digits h fun p hp => mem_tsmScanAux_digits hp

/-- C4: for every input string, every element of the set returned by
`extractItemIds` is a nonempty string consisting solely of decimal digits
(it matches `^\d+$`), and the set contains no duplicate values (it is a
`Nodup` list). -/
theorem extractItemIds_digits_nodup (text : String) :
    (extractItemIds text).Nodup ∧
      ∀ id ∈ extractItemIds text,
        id ≠ "" ∧ id.toList.all Char.isDigit = true :=
  extractItemIds_good text

/-- Witness for C4. -/
theorem extractItemIds_digits_nodup_witness :
    ("5" ∈ extractItemIds "i:5") ∧
      ("5" : String) ≠ "" ∧ ("5" : String).toList.all Char.isDigit = true :=
  ⟨by decide, (extractItemIds_digits_nodup "i:5").2 "5" (by decide)⟩


/-- C7: the matches of the URL scan, the `item:` scan and the `i:` scan
are unioned into one set: the input containing `https://wowhead.com/item=111`,
`item:222` and `i:333` yields exactly the set of ids 111, 222, 333. -/
theorem multi_pattern_union :
    extractItemIds "https://wowhead.com/item=111 item:222 i:333" =
      ["111", "222", "333"] := by decide

/-- C1: the markup input yields exactly the id set extracted from the
href (the bare token 456 is excluded because the markup heuristic fired),
the plain input yields both bare tokens, and in general, whenever the
markup heuristic fires, the result is built from the HTML step and the
URL / `item:` / `i:` scans only — the bare-number scan contributes
nothing. -/
theorem markup_gating :
    extractItemIds "<a href='/item=123'>Sword</a> 456" = ["123"] ∧
    extractItemIds "123, 456" = ["123", "456"] ∧
    ∀ text : String, isHTML text = true →
      extractItemIds text =
        setAddAll (setAddAll (setAddAll (setAddAll [] (anchorHrefIds text))
          (wowheadScan text)) (itemScan text)) (tsmScan text) := by
  refine ⟨by decide, by decide, fun text hH => ?_⟩
  simp [extractItemIds, extractItemIdsGen, hH]

/-- Witness for C1: the markup heuristic fires on the example input and
the bare-scan-free union equation holds there. -/
theorem markup_gating_witness :
    isHTML "<a href='/item=123'>Sword</a> 456" = true ∧
    extractItemIds "<a href='/item=123'>Sword</a> 456" =
      setAddAll (setAddAll (setAddAll (setAddAll []
        (anchorHrefIds "<a href='/item=123'>Sword</a> 456"))
        (wowheadScan "<a href='/item=123'>Sword</a> 456"))
        (itemScan "<a href='/item=123'>Sword</a> 456"))
        (tsmScan "<a href='/item=123'>Sword</a> 456") :=
  ⟨by decide, markup_gating.2.2 _ (by decide)⟩

/-- C6: `extractItemIds` is a total function (the definition below is the
whole of it), and when the HTML parsing step throws — `Except.error` —
that step contributes nothing and extraction continues, the result being
the union of the remaining pattern scans on the raw text. -/
theorem extract_total_graceful :
    (∀ text : String, extractItemIds text =
      extractItemIdsGen (Except.ok (anchorHrefIds text)) text) ∧
    ∀ text : String,
      extractItemIdsGen (Except.error ()) text = rawScanUnion text := by
  refine ⟨fun text => rfl, fun text => ?_⟩
  cases hH : isHTML text <;>
    simp [extractItemIdsGen, rawScanUnion, hH, setAddAll]

theorem insertNum_perm (a : String) (l : List String) :
    (insertNum a l).Perm (a :: l) := by
  induction l with
  | nil => exact List.Perm.refl _
  | cons b l ih =>
    rw [insertNum]
    split
    · exact List.Perm.refl _
    · exact (ih.cons b).trans (List.Perm.swap a b l)

theorem sortNumeric_perm (l : List String) : (sortNumeric l).Perm l := by
  suffices h : ∀ acc : List String,
      (l.foldl (fun acc a => insertNum a acc) acc).Perm (l ++ acc) by
    simpa using h []
  induction l with
  | nil => intro acc; simp
  | cons x xs ih =>
    intro acc
    rw [List.foldl_cons]
    refine (ih (insertNum x acc)).trans ?_
    refine (List.Perm.append_left xs (insertNum_perm x acc)).trans ?_
    exact List.perm_middle

theorem keyLtB_asymm {u v : Option Nat} (h : keyLtB u v = true) :
    keyLtB v u = false := by
  cases u <;> cases v <;> simp [keyLtB] at h ⊢ <;> omega

theorem keyLtB_trans {u v w : Option Nat} (h1 : keyLtB u v = true)
    (h2 : keyLtB v w = true) : keyLtB u w = true := by
  cases u <;> cases v <;> cases w <;> simp [keyLtB] at h1 h2 ⊢ <;> omega

theorem jsLt_asymm {a b : String} (h : jsLt a b = true) :
    jsLt b a = false :=
  keyLtB_asymm h

theorem jsLt_trans {a b c : String} (h1 : jsLt a b = true)
    (h2 : jsLt b c = true) : jsLt a c = true :=
  keyLtB_trans h1 h2

theorem pairwise_insertNum {a : String} {l : List String}
    (h : l.Pairwise (fun x y => jsLt y x = false)) :
    (insertNum a l).Pairwise (fun x y => jsLt y x = false) := by
  induction l with
  | nil => simp [insertNum]
  | cons b l ih =>
    rw [List.pairwise_cons] at h
    rw [insertNum]
    split
    next hab =>
      rw [List.pairwise_cons]
      refine ⟨?_, List.pairwise_cons.mpr h⟩
      intro y hy
      rcases List.mem_cons.mp hy with rfl | hy
      · exact jsLt_asymm hab
      · cases hya : jsLt y a
        · rfl
        · have := jsLt_trans hya hab
          rw [h.1 y hy] at this
          exact Bool.noConfusion this
    next hab =>
      rw [List.pairwise_cons]
      refine ⟨?_, ih h.2⟩
      intro y hy
      have hy2 : y = a ∨ y ∈ l := by
        simpa using (insertNum_perm a l).mem_iff.mp hy
      rcases hy2 with rfl | hy2
      · simpa using hab
      · exact h.1 y hy2

theorem sortNumeric_sorted (l : List String) :
    (sortNumeric l).Pairwise (fun x y => jsLt y x = false) := by
  suffices h : ∀ acc : List String,
      acc.Pairwise (fun x y => jsLt y x = false) →
      (l.foldl (fun acc a => insertNum a acc) acc).Pairwise
        (fun x y => jsLt y x = false) from h [] List.Pairwise.nil
  induction l with
  | nil => exact fun acc hacc => hacc
  | cons x xs ih => exact fun acc hacc => ih _ (pairwise_insertNum hacc)

/-- C3 (amended): whenever the final id set is non-empty, the rendered
output is exactly the comma-joined `i:<id>` tokens of the merged set
stably sorted by the `Number(a) - Number(b)` comparator: ascending by
the IEEE-double value of each id and containing the same ids.  This is
ascending by exact numeric value only up to double precision: ids whose
doubles tie (e.g. 16+-digit ids beyond `2^53`) keep their
first-discovered order, so the output need not be exactly-numerically
ascending (see the counterexample).  Together with C4 (each id a
nonempty digit string) this gives tokens of shape `i:<decimal-digits>`
with no trailing separator and no whitespace; the example input
"500, 3, 42" rendering as "i:3,i:42,i:500" is the witness below. -/
theorem convert_output_sorted (resolver : String → SearchResult)
    (input : String) (htrim : jsTrim input ≠ "")
    (hne : sortNumeric (convState resolver input).1 ≠ []) :
    (convertToTSM resolver input).outputValue =
        some (renderTSM (sortNumeric (convState resolver input).1)) ∧
      (sortNumeric (convState resolver input).1).Pairwise
        (fun x y => jsLt y x = false) ∧
      ∀ x, x ∈ sortNumeric (convState resolver input).1 ↔
        x ∈ (convState resolver input).1 := by
  refine ⟨?_, sortNumeric_sorted _, fun x => (sortNumeric_perm _).mem_iff⟩
  have hlen : ¬ (sortNumeric (convState resolver input).1).length = 0 :=
    fun h => hne (List.length_eq_zero.mp h)
  simp only [convertToTSM, if_neg htrim]
  rw [if_neg fun hcon => hlen hcon.1, if_neg hlen]
  split
  · rfl
  split
  · rfl
  · rfl

/-- Counterexample to C3 as stated: `Number` compares ids as IEEE
doubles, and both 16-digit ids below round to the double
9007199254740992, so the comparator ties, the stable sort keeps
insertion order, and the program renders
"i:9007199254740993,i:9007199254740992" — whose first token has the
strictly larger exact numeric value, so the output is not sorted in
ascending (exact) numeric order. -/
theorem convert_output_sorted_counterexample :
    (convertToTSM alwaysFailResolver
        "9007199254740993, 9007199254740992").outputValue =
      some "i:9007199254740993,i:9007199254740992" ∧
    natVal "9007199254740992" < natVal "9007199254740993" :=
  ⟨by decide, by decide⟩

/-- Witness for C3: the concrete rendering of "500, 3, 42". -/
theorem convert_output_sorted_witness :
    jsTrim "500, 3, 42" ≠ "" ∧
      sortNumeric (convState alwaysFailResolver "500, 3, 42").1 ≠ [] ∧
      (convertToTSM alwaysFailResolver "500, 3, 42").outputValue =
        some "i:3,i:42,i:500" :=
  ⟨by decide, by decide,
    (convert_output_sorted alwaysFailResolver "500, 3, 42" (by decide)
      (by decide)).1.trans (by decide)⟩


theorem toList_append (a b : String) :
    (a ++ b).toList = a.toList ++ b.toList := by
  cases a; cases b; rfl

theorem mk_toList (s : String) : String.mk s.toList = s := by
  cases s; rfl

theorem eq_empty_of_toList_nil {s : String} (h : s.toList = []) : s = "" := by
  cases s
  cases h
  rfl

theorem namesAux_state_irrel (a b s : List Char) :
    namesAux false a s = namesAux false b s := by
  induction s generalizing a b with
  | nil => rfl
  | cons c cs ih =>
    rw [namesAux, namesAux]
    by_cases hc : c = ']'
    · simp [hc]
    · by_cases hc2 : c = '['
      · simp [hc, hc2]
      · simp only [if_neg hc, if_neg hc2, Bool.false_eq_true, if_false]
        exact ih a b

theorem namesAux_skip {pre : List Char} (h : ∀ c ∈ pre, c ≠ '[')
    (rest : List Char) :
    namesAux false [] (pre ++ rest) = namesAux false [] rest := by
  induction pre with
  | nil => rfl
  | cons c cs ih =>
    have hc : c ≠ '[' := h c (List.mem_cons_self c cs)
    have hcs : ∀ d ∈ cs, d ≠ '[' := fun d hd => h d (List.mem_cons_of_mem c hd)
    rw [List.cons_append, namesAux]
    by_cases hcb : c = ']'
    · simpa [hcb] using ih hcs
    · simp only [if_neg hcb, if_neg hc, Bool.false_eq_true, if_false]
      exact ih hcs

theorem namesAux_inner {n : List Char} (h : ∀ c ∈ n, c ≠ ']')
    (acc rest : List Char) :
    namesAux true acc (n ++ rest) = namesAux true (n.reverse ++ acc) rest := by
  induction n generalizing acc with
  | nil => simp
  | cons c cs ih =>
    have hc : c ≠ ']' := h c (List.mem_cons_self c cs)
    have hcs : ∀ d ∈ cs, d ≠ ']' := fun d hd => h d (List.mem_cons_of_mem c hd)
    have step : namesAux true acc (c :: (cs ++ rest)) =
        namesAux true (c :: acc) (cs ++ rest) := by
      rw [namesAux]
      by_cases hcb : c = '['
      · simp [hc, hcb]
      · simp [hc, hcb]
    rw [List.cons_append, step, ih hcs (c :: acc), List.reverse_cons,
      List.append_assoc]
    rfl

theorem namesAux_emit {acc : List Char} (hne : acc ≠ []) (rest : List Char) :
    namesAux true acc (']' :: rest) = acc.reverse :: namesAux false [] rest := by
  have hie : acc.isEmpty = false := by
    cases acc with
    | nil => exact absurd rfl hne
    | cons x xs => rfl
  rw [namesAux]
  simp [hie]

/-- C8: `extractItemNames` is total and returns the inner texts of the
bracket-delimited substrings (shortest match from each `[` to the next
`]`), in order of appearance, duplicates preserved.  Characterisation:
on text with no `[` it returns nothing, and a leading `[`-free prefix
followed by `[name]` contributes exactly `name` followed by the names of
the remaining text. -/
theorem extractItemNames_spec :
    (∀ s : String, (∀ c ∈ s.toList, c ≠ '[') → extractItemNames s = []) ∧
    ∀ (pre n rest : String), (∀ c ∈ pre.toList, c ≠ '[') → n ≠ "" →
      (∀ c ∈ n.toList, c ≠ ']') →
      extractItemNames (pre ++ "[" ++ n ++ "]" ++ rest) =
        n :: extractItemNames rest := by
  constructor
  · intro t ht
    have h0 : namesAux false [] (t.toList ++ []) = namesAux false [] [] :=
      namesAux_skip ht []
    rw [List.append_nil] at h0
    show (namesAux false [] t.toList).map String.mk = []
    exact (congrArg (List.map String.mk) h0).trans rfl
  · intro pre n rest hpre hn hnrb
    have hlist : (pre ++ "[" ++ n ++ "]" ++ rest).toList =
        pre.toList ++ ('[' :: (n.toList ++ (']' :: rest.toList))) := by
      simp [toList_append]
    have hnl : n.toList ≠ [] := fun hh => hn (eq_empty_of_toList_nil hh)
    rw [extractItemNames, hlist, namesAux_skip hpre]
    have hopen : namesAux false [] ('[' :: (n.toList ++ (']' :: rest.toList))) =
        namesAux true [] (n.toList ++ (']' :: rest.toList)) := by
      rw [namesAux]
      simp
    rw [hopen, namesAux_inner hnrb, List.append_nil, namesAux_emit
      (fun hh => hnl (by simpa using congrArg List.reverse hh)),
      List.reverse_reverse]
    simp only [List.map_cons, mk_toList, extractItemNames]

/-- Witness for C8. -/
theorem extractItemNames_spec_witness :
    (∀ c ∈ ("x " : String).toList, c ≠ '[') ∧
      extractItemNames ("x " ++ "[" ++ "Thunderfury" ++ "]" ++ " y") =
        ["Thunderfury"] :=
  ⟨by decide,
    (extractItemNames_spec.2 "x " "Thunderfury" " y" (by decide) (by decide)
      (by decide)).trans (by decide)⟩

theorem namesAux_good : ∀ {s : List Char} {found : Bool} {acc : List Char},
    ']' ∉ acc → ∀ p ∈ namesAux found acc s, p ≠ [] ∧ ']' ∉ p := by
  intro s
  induction s with
  | nil => intro found acc _ p hp; simp [namesAux] at hp
  | cons c cs ih =>
    intro found acc hacc p hp
    rw [namesAux] at hp
    by_cases hc : c = ']'
    · rw [if_pos hc, List.mem_append] at hp
      rcases hp with hp | hp
      · split at hp
        next hcond =>
          rw [List.mem_singleton] at hp
          subst hp
          rw [Bool.and_eq_true] at hcond
          refine ⟨fun hh => ?_, by simpa using hacc⟩
          have hanil : acc = [] := by simpa using congrArg List.reverse hh
          rw [hanil] at hcond
          simp at hcond
        next => simp at hp
      · exact ih (by simp) p hp
    · rw [if_neg hc] at hp
      have hacc2 : ']' ∉ c :: acc := by
        intro hmem
        rcases List.mem_cons.mp hmem with hh | hh
        · exact hc hh.symm
        · exact hacc hh
      by_cases hc2 : c = '['
      · rw [if_pos hc2] at hp
        cases found with
        | true =>
          simp only [if_true] at hp
          exact ih hacc2 p hp
        | false =>
          simp only [Bool.false_eq_true, if_false] at hp
          exact ih (by simp) p hp
      · rw [if_neg hc2] at hp
        cases found with
        | true =>
          simp only [if_true] at hp
          exact ih hacc2 p hp
        | false =>
          simp only [Bool.false_eq_true, if_false] at hp
          exact ih hacc p hp

/-- C10: every name returned by `extractItemNames` is nonempty and
contains no `]`; in particular an empty bracket pair contributes no
name. -/
theorem extractItemNames_good (text : String) :
    ∀ n ∈ extractItemNames text, n ≠ "" ∧ ']' ∉ n.toList := by
  intro n hn
  rw [extractItemNames, List.mem_map] at hn
  obtain ⟨p, hp, rfl⟩ := hn
  have := namesAux_good (by simp) p hp
  exact ⟨fun hh => this.1 (mk_eq_empty_iff.mp hh), this.2⟩

/-- Witness for C10. -/
theorem extractItemNames_good_witness :
    ("ab" ∈ extractItemNames "[ab] []") ∧
      ("ab" : String) ≠ "" ∧ ']' ∉ ("ab" : String).toList :=
  ⟨by decide, extractItemNames_good "[ab] []" "ab" (by decide)⟩

theorem listviewResult_shape (itemName : String) (lv : ListviewOutcome) :
    (∃ id fn, listviewResult itemName lv =
        some (SearchResult.found id itemName fn)) ∨
      listviewResult itemName lv = none := by
  cases lv with
  | noMatch => exact Or.inr rfl
  | parseFailure => exact Or.inr rfl
  | parsed data =>
    cases data with
    | nil => exact Or.inr rfl
    | cons row rows =>
      cases hid : row.id with
      | none => exact Or.inr (by simp [listviewResult, hid])
      | some nv =>
        by_cases hnz : nv ≠ 0
        · exact Or.inl ⟨toString nv,
            jsOrStr row.name_enus (jsOrStr row.name itemName),
            by simp [listviewResult, hid, hnz]⟩
        · exact Or.inr (by simp [listviewResult, hid, hnz])

/-- C5: the resolver is total — for every name, every behaviour of the
fetch collaborator and every outcome of the structured Listview parse, it
returns either a `found` value carrying the searched name or a `notFound`
value carrying the name and the constructed search URL; no outcome
escapes as an exception. -/
theorem searchWowhead_total (itemName : String) (fetchResult : FetchBehavior)
    (listview : String → ListviewOutcome) :
    (∃ id foundName, searchWowheadForItemName itemName fetchResult listview =
        SearchResult.found id itemName foundName) ∨
    ∃ err, searchWowheadForItemName itemName fetchResult listview =
        SearchResult.notFound itemName err (searchUrlFor itemName) := by
  cases fetchResult with
  | fetchThrow msg => exact Or.inr ⟨msg, rfl⟩
  | respond ok html =>
    by_cases hok : ok = false
    · exact Or.inr ⟨"Response not OK",
        by simp [searchWowheadForItemName, hok]⟩
    · rcases listviewResult_shape itemName (listview html) with ⟨id, fn, hs⟩ | hs
      · exact Or.inl ⟨id, fn,
          by simp [searchWowheadForItemName, hok, hs]⟩
      · cases hfb : findFallbackItemId html.data with
        | some ds =>
          exact Or.inl ⟨String.mk ds, itemName,
            by simp [searchWowheadForItemName, hok, hs, hfb]⟩
        | none =>
          exact Or.inr ⟨"No item found",
            by simp [searchWowheadForItemName, hok, hs, hfb]⟩

/-- C9: when the final merged id set is empty, the outcome is an error
message, empty output and zero counts: with at least one failed lookup
the message is the manual-search error carrying the formatted links for
each failed name (kind "error", never a success); with no failed lookup
the distinct "no items found" error is shown instead. -/
theorem convert_empty_distinction (resolver : String → SearchResult)
    (input : String) (htrim : jsTrim input ≠ "")
    (hempty : (convState resolver input).1 = []) :
    ((convState resolver input).2.2 ≠ [] →
      convertToTSM resolver input =
        { message := ⟨"Could not automatically find items. Try searching manually: "
            ++ formatSearchLinks (convState resolver input).2.2
            ++ ". Note: Automatic search may be blocked by ad blockers or browser extensions.",
            "error", true⟩,
          outputValue := some "", itemCount := some "0",
          uniqueCount := some "0" }) ∧
    ((convState resolver input).2.2 = [] →
      convertToTSM resolver input =
        { message := ⟨"No valid item IDs found in the input", "error", false⟩,
          outputValue := some "", itemCount := some "0",
          uniqueCount := some "0" }) := by
  constructor
  · intro hfail
    simp only [convertToTSM, if_neg htrim, hempty]
    rw [if_pos ⟨rfl, hfail⟩]
  · intro hfailnil
    simp only [convertToTSM, if_neg htrim, hempty, hfailnil]
    rw [if_neg (fun hcon => hcon.2 rfl),
      if_pos (show (sortNumeric ([] : List String)).length = 0 from rfl)]

/-- Witness for C9: a failing resolver on a bracketed name gives the
manual-search error; an input with nothing recognizable gives the
"no items found" error. -/
theorem convert_empty_distinction_witness :
    (jsTrim "[Nonexistent Item]" ≠ "" ∧
      (convState alwaysFailResolver "[Nonexistent Item]").1 = [] ∧
      (convState alwaysFailResolver "[Nonexistent Item]").2.2 ≠ [] ∧
      (convertToTSM alwaysFailResolver "[Nonexistent Item]").message.kind
        = "error" ∧
      (convertToTSM alwaysFailResolver "[Nonexistent Item]").outputValue
        = some "") ∧
    (jsTrim "xyz" ≠ "" ∧
      convertToTSM alwaysFailResolver "xyz" =
        { message := ⟨"No valid item IDs found in the input", "error", false⟩,
          outputValue := some "", itemCount := some "0",
          uniqueCount := some "0" }) := by
  constructor
  · refine ⟨by decide, by decide, by decide, ?_, ?_⟩
    · rw [(convert_empty_distinction alwaysFailResolver "[Nonexistent Item]"
        (by decide) (by decide)).1 (by decide)]
    · rw [(convert_empty_distinction alwaysFailResolver "[Nonexistent Item]"
        (by decide) (by decide)).1 (by decide)]
  · exact ⟨by decide,
      (convert_empty_distinction alwaysFailResolver "xyz" (by decide)
        (by decide)).2 (by decide)⟩


theorem ne_of_isDigit {c x : Char} (hc : c.isDigit = true)
    (hx : x.isDigit = false) : c ≠ x := by
  intro h
  rw [h, hx] at hc
  exact Bool.noConfusion hc

theorem takeWhile_eq_self_of_all {α : Type} {p : α → Bool} {l : List α}
    (h : l.all p = true) : l.takeWhile p = l := by
  have := takeWhile_append_of_all h ([] : List α)
  simpa using this

theorem isEmpty_eq_false_of_ne_nil {α : Type} {l : List α} (h : l ≠ []) :
    l.isEmpty = false := by
  cases l with
  | nil => exact absurd rfl h
  | cons x xs => rfl

theorem map_mk_toList (l : List String) :
    (l.map String.toList).map String.mk = l := by
  induction l with
  | nil => rfl
  | cons x xs ih => simp [mk_toList, ih]

theorem renderTSM_toList (ids : List String) :
    (renderTSM ids).toList = renderChars ids := by
  induction ids with
  | nil => rfl
  | cons x rest ih =>
    cases rest with
    | nil => rfl
    | cons y ys =>
      show (("i:" ++ x) ++ "," ++ renderTSM (y :: ys)).toList =
        'i' :: ':' :: (x.toList ++ ',' :: renderChars (y :: ys))
      rw [toList_append, toList_append, ih]
      simp

theorem mem_renderChars {ids : List String}
    (h : ∀ x ∈ ids, x.toList.all Char.isDigit = true) :
    ∀ c ∈ renderChars ids,
      c = 'i' ∨ c = ':' ∨ c = ',' ∨ c.isDigit = true := by
  induction ids with
  | nil => intro c hc; simp [renderChars] at hc
  | cons x rest ih =>
    intro c hc
    have hx := h x (List.mem_cons_self x rest)
    cases rest with
    | nil =>
      rw [show renderChars [x] = 'i' :: ':' :: x.toList from rfl] at hc
      rcases List.mem_cons.mp hc with rfl | hc
      · exact Or.inl rfl
      rcases List.mem_cons.mp hc with rfl | hc
      · exact Or.inr (Or.inl rfl)
      · exact Or.inr (Or.inr (Or.inr (List.all_eq_true.mp hx c hc)))
    | cons y ys =>
      rw [show renderChars (x :: y :: ys) =
        'i' :: ':' :: (x.toList ++ ',' :: renderChars (y :: ys)) from rfl] at hc
      rcases List.mem_cons.mp hc with rfl | hc
      · exact Or.inl rfl
      rcases List.mem_cons.mp hc with rfl | hc
      · exact Or.inr (Or.inl rfl)
      rcases List.mem_append.mp hc with hc | hc
      · exact Or.inr (Or.inr (Or.inr (List.all_eq_true.mp hx c hc)))
      rcases List.mem_cons.mp hc with rfl | hc
      · exact Or.inr (Or.inr (Or.inl rfl))
      · exact ih (fun z hz => h z (List.mem_cons_of_mem x hz)) c hc

theorem tsmScanAux_cons_ne {c : Char} {cs : List Char}
    (hc : c ≠ 'i') (hc2 : c ≠ 'I') :
    tsmScanAux (c :: cs) = tsmScanAux cs := by
  rw [tsmScanAux]
  simp [hc, hc2]

theorem tsmScanAux_digits_skip {d : List Char} (hd : d.all Char.isDigit = true)
    (z : List Char) : tsmScanAux (d ++ z) = tsmScanAux z := by
  induction d with
  | nil => rfl
  | cons c cs ih =>
    rw [List.all_cons, Bool.and_eq_true] at hd
    rw [List.cons_append,
      tsmScanAux_cons_ne (ne_of_isDigit hd.1 (by decide))
        (ne_of_isDigit hd.1 (by decide)),
      ih hd.2]

theorem sep_takeWhile {z : List Char} (hz : z = [] ∨ ∃ w, z = ',' :: w) :
    z.takeWhile Char.isDigit = [] := by
  rcases hz with rfl | ⟨w, rfl⟩
  · rfl
  · rw [List.takeWhile_cons]
    simp

theorem sep_dropWhile {z : List Char} (hz : z = [] ∨ ∃ w, z = ',' :: w) :
    z.dropWhile Char.isDigit = z := by
  rcases hz with rfl | ⟨w, rfl⟩
  · rfl
  · rw [List.dropWhile_cons]
    simp

theorem tsmScanAux_emit {x z : List Char} (hx : x ≠ [])
    (hxd : x.all Char.isDigit = true) (hz : z = [] ∨ ∃ w, z = ',' :: w) :
    tsmScanAux ('i' :: ':' :: (x ++ z)) = x :: tsmScanAux z := by
  have ht : (x ++ z).takeWhile Char.isDigit = x := by
    rw [takeWhile_append_of_all hxd, sep_takeWhile hz, List.append_nil]
  rw [tsmScanAux]
  rw [if_pos ⟨by simp, rfl⟩]
  show (if ((x ++ z).takeWhile Char.isDigit).isEmpty = true then []
      else [(x ++ z).takeWhile Char.isDigit]) ++ tsmScanAux (':' :: (x ++ z)) =
    x :: tsmScanAux z
  rw [ht, if_neg (by rw [isEmpty_eq_false_of_ne_nil hx]; simp),
    tsmScanAux_cons_ne (by decide) (by decide), tsmScanAux_digits_skip hxd]
  rfl

theorem tsmScanAux_render (ids : List String)
    (h : ∀ x ∈ ids, x ≠ "" ∧ x.toList.all Char.isDigit = true) :
    tsmScanAux (renderChars ids) = ids.map String.toList := by
  induction ids with
  | nil => rfl
  | cons x rest ih =>
    have hx := h x (List.mem_cons_self x rest)
    have hxl : x.toList ≠ [] := fun hh => hx.1 (eq_empty_of_toList_nil hh)
    cases rest with
    | nil =>
      have e := tsmScanAux_emit (x := x.toList) (z := []) hxl hx.2 (Or.inl rfl)
      rw [List.append_nil] at e
      show tsmScanAux ('i' :: ':' :: x.toList) = [x.toList]
      rw [e]
      rfl
    | cons y ys =>
      show tsmScanAux ('i' :: ':' :: (x.toList ++ ',' :: renderChars (y :: ys)))
        = x.toList :: (y :: ys).map String.toList
      rw [tsmScanAux_emit hxl hx.2 (Or.inr ⟨renderChars (y :: ys), rfl⟩),
        tsmScanAux_cons_ne (by decide) (by decide),
        ih fun z hz => h z (List.mem_cons_of_mem x hz)]


theorem itemScanAux_cons_ne {c : Char} {cs : List Char}
    (hc : c ≠ 'i') (hc2 : c ≠ 'I') :
    itemScanAux (c :: cs) = itemScanAux cs := by
  rw [itemScanAux]
  simp [matchPat, itemColonPat, hc, hc2]

theorem itemScanAux_cons2_ne {c d : Char} {cs : List Char}
    (hd : d ≠ 't') (hd2 : d ≠ 'T') :
    itemScanAux (c :: d :: cs) = itemScanAux (d :: cs) := by
  rw [itemScanAux]
  simp [matchPat, itemColonPat, hd, hd2]

theorem itemScanAux_digits_skip {d : List Char}
    (hd : d.all Char.isDigit = true) (z : List Char) :
    itemScanAux (d ++ z) = itemScanAux z := by
  induction d with
  | nil => rfl
  | cons c cs ih =>
    rw [List.all_cons, Bool.and_eq_true] at hd
    rw [List.cons_append,
      itemScanAux_cons_ne (ne_of_isDigit hd.1 (by decide))
        (ne_of_isDigit hd.1 (by decide)),
      ih hd.2]

theorem itemScanAux_render (ids : List String)
    (h : ∀ x ∈ ids, x ≠ "" ∧ x.toList.all Char.isDigit = true) :
    itemScanAux (renderChars ids) = [] := by
  induction ids with
  | nil => rfl
  | cons x rest ih =>
    have hx := h x (List.mem_cons_self x rest)
    cases rest with
    | nil =>
      show itemScanAux ('i' :: ':' :: x.toList) = []
      rw [itemScanAux_cons2_ne (by decide) (by decide),
        itemScanAux_cons_ne (by decide) (by decide)]
      have e := itemScanAux_digits_skip hx.2 []
      rw [List.append_nil] at e
      rw [e]
      rfl
    | cons y ys =>
      show itemScanAux
        ('i' :: ':' :: (x.toList ++ ',' :: renderChars (y :: ys))) = []
      rw [itemScanAux_cons2_ne (by decide) (by decide),
        itemScanAux_cons_ne (by decide) (by decide),
        itemScanAux_digits_skip hx.2,
        itemScanAux_cons_ne (by decide) (by decide)]
      exact ih fun z hz => h z (List.mem_cons_of_mem x hz)

theorem bareScanAux_nondigit {b : Bool} {c : Char} {cs : List Char}
    (hc : c.isDigit = false) :
    bareScanAux b (c :: cs) = bareScanAux (isWordChar c) cs := by
  rw [bareScanAux]
  simp [hc]

theorem bareScanAux_digits_skip {d : List Char}
    (hd : d.all Char.isDigit = true) (z : List Char) :
    bareScanAux true (d ++ z) = bareScanAux true z := by
  induction d with
  | nil => rfl
  | cons c cs ih =>
    rw [List.all_cons, Bool.and_eq_true] at hd
    rw [List.cons_append, bareScanAux]
    simp only [hd.1, if_true, Bool.not_true, Bool.false_and,
      Bool.false_eq_true, if_false, List.nil_append]
    exact ih hd.2

theorem bareScanAux_emit {x z : List Char} (hx : x ≠ [])
    (hxd : x.all Char.isDigit = true) (hz : z = [] ∨ ∃ w, z = ',' :: w) :
    bareScanAux false (x ++ z) = x :: bareScanAux true z := by
  cases x with
  | nil => exact absurd rfl hx
  | cons c cs =>
    rw [List.all_cons, Bool.and_eq_true] at hxd
    have hdrop : (cs ++ z).dropWhile Char.isDigit = z := by
      rw [dropWhile_append_of_all hxd.2, sep_dropWhile hz]
    have htake : (cs ++ z).takeWhile Char.isDigit = cs := by
      rw [takeWhile_append_of_all hxd.2, sep_takeWhile hz, List.append_nil]
    rw [List.cons_append, bareScanAux, if_pos hxd.1, hdrop, htake,
      bareScanAux_digits_skip hxd.2]
    rcases hz with rfl | ⟨w, rfl⟩
    · rw [if_pos (by decide)]
      rfl
    · rw [if_pos (by rfl)]
      rfl

theorem bareScanAux_render (ids : List String)
    (h : ∀ x ∈ ids, x ≠ "" ∧ x.toList.all Char.isDigit = true) :
    bareScanAux false (renderChars ids) = ids.map String.toList := by
  induction ids with
  | nil => rfl
  | cons x rest ih =>
    have hx := h x (List.mem_cons_self x rest)
    have hxl : x.toList ≠ [] := fun hh => hx.1 (eq_empty_of_toList_nil hh)
    cases rest with
    | nil =>
      show bareScanAux false ('i' :: ':' :: x.toList) = [x.toList]
      rw [bareScanAux_nondigit (by decide), bareScanAux_nondigit (by decide)]
      show bareScanAux false x.toList = [x.toList]
      have e := bareScanAux_emit (z := []) hxl hx.2 (Or.inl rfl)
      rw [List.append_nil] at e
      rw [e]
      rfl
    | cons y ys =>
      show bareScanAux false
        ('i' :: ':' :: (x.toList ++ ',' :: renderChars (y :: ys)))
        = x.toList :: (y :: ys).map String.toList
      rw [bareScanAux_nondigit (by decide), bareScanAux_nondigit (by decide)]
      show bareScanAux false (x.toList ++ ',' :: renderChars (y :: ys)) = _
      rw [bareScanAux_emit hxl hx.2 (Or.inr ⟨renderChars (y :: ys), rfl⟩),
        bareScanAux_nondigit (by decide)]
      show x.toList :: bareScanAux false (renderChars (y :: ys)) = _
      rw [ih fun z hz => h z (List.mem_cons_of_mem x hz)]

theorem wowheadScanAux_nil {s : List Char}
    (h : ∀ c ∈ s, c ≠ 'w' ∧ c ≠ 'W') : wowheadScanAux s = [] := by
  induction s with
  | nil => rfl
  | cons c cs ih =>
    have hc := h c (List.mem_cons_self c cs)
    rw [wowheadScanAux]
    have hm : matchPat wowheadPat (c :: cs) = none := by
      simp [matchPat, wowheadPat, hc.1, hc.2]
    rw [hm]
    exact ih fun d hd => h d (List.mem_cons_of_mem c hd)

theorem isHTMLChars_nil {s : List Char} (h : ∀ c ∈ s, c ≠ '<') :
    isHTMLChars s = false := by
  induction s with
  | nil => rfl
  | cons c cs ih =>
    rw [isHTMLChars]
    simp only [h c (List.mem_cons_self c cs), decide_False, Bool.false_and,
      Bool.false_or]
    exact ih fun d hd => h d (List.mem_cons_of_mem c hd)

/-- Extracting from the canonical rendering of the sorted extracted set
gives back exactly that sorted list. -/
theorem extract_render_eq (text : String) :
    extractItemIds (renderTSM (sortNumeric (extractItemIds text))) =
      sortNumeric (extractItemIds text) := by
  have hgood := extractItemIds_good text
  set L := sortNumeric (extractItemIds text) with hLdef
  have hperm : L.Perm (extractItemIds text) := sortNumeric_perm _
  have hLg : ∀ x ∈ L, x ≠ "" ∧ x.toList.all Char.isDigit = true :=
    fun x hx => hgood.2 x (hperm.mem_iff.mp hx)
  have hLnd : L.Nodup := hperm.nodup_iff.mpr hgood.1
  set R := renderTSM L with hRdef
  have hRl : R.toList = renderChars L := renderTSM_toList L
  have hclass := mem_renderChars (fun x hx => (hLg x hx).2)
  have h1 : isHTML R = false := by
    show isHTMLChars R.toList = false
    rw [hRl]
    refine isHTMLChars_nil fun c hc => ?_
    rcases hclass c hc with rfl | rfl | rfl | hd
    · decide
    · decide
    · decide
    · exact ne_of_isDigit hd (by decide)
  have h2 : wowheadScan R = [] := by
    have hw : ∀ c ∈ renderChars L, c ≠ 'w' ∧ c ≠ 'W' := by
      intro c hc
      rcases hclass c hc with rfl | rfl | rfl | hd
      · exact ⟨by decide, by decide⟩
      · exact ⟨by decide, by decide⟩
      · exact ⟨by decide, by decide⟩
      · exact ⟨ne_of_isDigit hd (by decide), ne_of_isDigit hd (by decide)⟩
    show (wowheadScanAux R.toList).map String.mk = []
    rw [hRl, wowheadScanAux_nil hw]
    rfl
  have h3 : bareScan R = L := by
    show (bareScanAux false R.toList).map String.mk = L
    rw [hRl, bareScanAux_render L hLg, map_mk_toList]
  have h4 : itemScan R = [] := by
    show (itemScanAux R.toList).map String.mk = []
    rw [hRl, itemScanAux_render L hLg]
    rfl
  have h5 : tsmScan R = L := by
    show (tsmScanAux R.toList).map String.mk = L
    rw [hRl, tsmScanAux_render L hLg, map_mk_toList]
  show extractItemIdsGen (Except.ok (anchorHrefIds R)) R = L
  simp only [extractItemIdsGen, h1, Bool.false_eq_true, if_false]
  rw [h2, h3, h4, h5]
  calc setAddAll (setAddAll (setAddAll (setAddAll (setAddAll [] []) []) L) []) L
      = setAddAll (setAddAll ([] : List String) L) L := rfl
    _ = setAddAll L L := by
        rw [setAddAll_eq_append hLnd fun x hx => List.not_mem_nil x,
          List.nil_append]
    _ = L := setAddAll_of_subset fun x hx => hx

/-- C2: idempotence via the canonical format: for every input text,
rendering the set `extractItemIds text` as the comma-joined list of
`i:<id>` tokens (in the canonical numerically sorted order used by
`convertToTSM`) and feeding that rendering back into `extractItemIds`
yields exactly the same set of id strings. -/
theorem extract_render_idempotent (text : String) (id : String) :
    id ∈ extractItemIds (renderTSM (sortNumeric (extractItemIds text))) ↔
      id ∈ extractItemIds text := by
  rw [extract_render_eq text]
  exact (sortNumeric_perm _).mem_iff

end TSM
